import Mathlib

/-!
A shallow embedding of `src/dantalian/tree.py`: the virtual node tree
(`FSNode`, `TagNode`, `RootNode`) with its mapping protocol, the path
resolver `split`, the collision resolver `_uniqmap`, and the serializer
`dump` / deserializer `load`.

Modelling conventions:
* Python dictionaries are insertion-ordered association lists
  (`List (String × _)`); assignment overwrites in place, new keys are
  appended at the end, exactly like CPython dicts.
* Python exceptions are an explicit error type `PyErr`; functions that can
  raise return `Except PyErr _`.
* The unbounded `while` loop of `_uniqmap` is embedded with a fuel
  parameter: `none` means the loop has not finished within the given fuel,
  and `∀ fuel, ... = none` expresses non-termination of the Python loop.
* The module `dantalian.path` (`fuse_resolve`, `fuserootdir`, `rootdir`)
  is not part of the sources; those three helpers are modelled from the
  spec (see their doc comments).
* Of the `attr` dictionary of `FSNode` only `st_nlink` is modelled; the
  remaining entries (timestamps, uid/gid, mode, size) are never read by
  the code under verification and the timestamps are wall-clock values.
-/

namespace Dantalian

/-- Python exception kinds raised by the embedded code.  `diverge` marks a
computation that does not terminate (it is never caught by any handler). -/
inductive PyErr where
  | keyError
  | typeError
  | attributeError
  | indexError
  | assertionError
  | diverge
  deriving Repr, DecidableEq

/-- Model of `os.path.basename`: the part of the string after the last
slash (empty if the string ends in a slash). -/
def basename (p : String) : String :=
  String.mk (p.toList.foldl (fun acc c => if c = '/' then [] else acc ++ [c]) [])

/-- First-match lookup in an association list: Python `map[key]` read
access (`some` value) and the `key in map` test (`isSome`). -/
def dlookup {α : Type} : List (String × α) → String → Option α
  | [], _ => none
  | (k, v) :: rest, key => if k = key then some v else dlookup rest key

/-- Python dict assignment `map[key] = val`: overwrites the first entry
with that key in place, otherwise appends a new entry at the end. -/
def dinsert {α : Type} : List (String × α) → String → α → List (String × α)
  | [], key, val => [(key, val)]
  | (k, v) :: rest, key, val =>
    if k = key then (k, val) :: rest else (k, v) :: dinsert rest key val

/-- Python `del map[key]` (the removal itself; the caller checks
presence): removes the first entry with that key. -/
def dremove {α : Type} : List (String × α) → String → List (String × α)
  | [], _ => []
  | (k, v) :: rest, key => if k = key then rest else (k, v) :: dremove rest key

/-- Modelled from the spec: `dantalian.path.fuse_resolve` is not in the
sources.  The spec says the alternate name is "derived from a longer
suffix of its real path — enough additional path context to disambiguate
it from a plain basename"; we model it by the maximal such suffix, the
full real path itself, which carries all available context and makes
distinct paths receive distinct alternate names, as the spec's uniqueness
guarantee requires. -/
def fuseResolve (p : String) : String := p

/-- Modelled from the spec: `dantalian.path.fuserootdir` is not in the
sources.  The spec only says the Root Projection Node "registers one extra
explicit child"; we model the reserved child name as a fixed string. -/
def fuserootdir (_ : String) : String := ".dantalian-fuse"

/-- Modelled from the spec: `dantalian.path.rootdir` is not in the
sources.  The spec says the reserved entry's value is "the library's
private metadata directory path" under the storage root. -/
def rootdir (r : String) : String := r ++ "/.dantalian"

/-- The work-queue loop of `_uniqmap`, parameterised by the alternate-name
function `fr` (the code uses `libpath.fuse_resolve`) and by fuel.  One
unit of fuel is one iteration of the Python `while files:` loop; `none`
means the loop did not drain the queue within the given fuel.  Note the
eviction `files.append(map[new])` puts the evicted path at the BACK of the
queue. -/
def uniqmapGo (fr : String → String) :
    Nat → List String → List (String × String) → List String →
    Option (List (String × String))
  | _, [], map, _ => some map
  | 0, _ :: _, _, _ => none
  | fuel + 1, f :: files, map, seen =>
    let name := basename f
    if name ∈ seen then
      let new := fr f
      match dlookup map new with
      | some old =>
        uniqmapGo fr fuel (files ++ [old]) (dinsert map new f) (seen ++ [new])
      | none => uniqmapGo fr fuel files (dinsert map new f) (seen ++ [new])
    else
      uniqmapGo fr fuel files (dinsert map name f) (seen ++ [name])

/-- The collision-resolver loop as the SPEC words it ("evicted back onto
the front of the work queue for reprocessing"): identical to `uniqmapGo`
except that the evicted path is pushed on the FRONT of the queue.  Written
from the spec's words only, for comparison with `uniqmapGo`, which follows
the code. -/
def uniqmapGoFront (fr : String → String) :
    Nat → List String → List (String × String) → List String →
    Option (List (String × String))
  | _, [], map, _ => some map
  | 0, _ :: _, _, _ => none
  | fuel + 1, f :: files, map, seen =>
    let name := basename f
    if name ∈ seen then
      let new := fr f
      match dlookup map new with
      | some old =>
        uniqmapGoFront fr fuel (old :: files) (dinsert map new f) (seen ++ [new])
      | none => uniqmapGoFront fr fuel files (dinsert map new f) (seen ++ [new])
    else
      uniqmapGoFront fr fuel files (dinsert map name f) (seen ++ [name])

/-- Non-termination of the Python `while` loop of `_uniqmap`, expressed in
the fuel semantics: no amount of fuel drains the queue. -/
def uniqmapLoopsForever (fr : String → String) (files : List String) : Prop :=
  ∀ fuel, uniqmapGo fr fuel files [] [] = none

/-- The external Library collaborator: `find tags` is the tag query,
`root` the real storage-root path, `listing` the directory listing
`os.listdir(root.root)` used by `RootNode._files`. -/
structure Library where
  find : List String → List String
  root : String
  listing : List String

/-- A value of the node protocol: a real-path string (`str`) or one of the
three node classes.  Each node carries its explicit children dict
(insertion-ordered) and its `st_nlink` attribute; `TagNode` additionally
carries its library reference and tag list, `RootNode` its library
reference. -/
inductive Node where
  | str (s : String)
  | fs (children : List (String × Node)) (nlink : Nat)
  | tag (root : Library) (tags : List String) (children : List (String × Node)) (nlink : Nat)
  | rootN (root : Library) (children : List (String × Node)) (nlink : Nat)

/-- The explicit children dict `self.children` (a plain string value has
none). -/
def Node.children : Node → List (String × Node)
  | .str _ => []
  | .fs ch _ => ch
  | .tag _ _ ch _ => ch
  | .rootN _ ch _ => ch

/-- The `st_nlink` attribute (a plain string value has no `attr`; the `0`
returned for it is never used). -/
def Node.nlink : Node → Nat
  | .str _ => 0
  | .fs _ n => n
  | .tag _ _ _ n => n
  | .rootN _ _ n => n

/-- The Python class name, as used by `dump` via
`self.__class__.__name__`. -/
def Node.typeName : Node → String
  | .str _ => "str"
  | .fs _ _ => "FSNode"
  | .tag _ _ _ _ => "TagNode"
  | .rootN _ _ _ => "RootNode"

/-- The `tags` attribute of a `TagNode`. -/
def Node.tagsOf : Node → Option (List String)
  | .tag _ t _ _ => some t
  | _ => none

/-- The `root` (library) attribute of a border node. -/
def Node.libOf : Node → Option Library
  | .tag r _ _ _ => some r
  | .rootN r _ _ => some r
  | _ => none

/-- Whether the value is a plain string (`isinstance(a, str)`). -/
def Node.isStr : Node → Bool
  | .str _ => true
  | _ => false

/-- `FSNode.__setitem__` (inherited by both border nodes): writes the
explicit children dict and unconditionally increments `st_nlink` — also
when `key` overwrites an already-present child.  Assignment on a plain
string is never executed by the code under verification; it is modelled as
the identity. -/
def setitem : Node → String → Node → Node
  | .str s, _, _ => .str s
  | .fs ch n, k, v => .fs (dinsert ch k v) (n + 1)
  | .tag r t ch n, k, v => .tag r t (dinsert ch k v) (n + 1)
  | .rootN r ch n, k, v => .rootN r (dinsert ch k v) (n + 1)

/-- `FSNode.__delitem__`: `del self.children[key]` raises `KeyError` on a
missing key, leaving the node unchanged; on success the entry is removed
and `st_nlink` decremented. -/
def delitem : Node → String → Node
  | .str s, _ => .str s
  | .fs ch n, k =>
    if (dlookup ch k).isSome then .fs (dremove ch k) (n - 1) else .fs ch n
  | .tag r t ch n, k =>
    if (dlookup ch k).isSome then .tag r t (dremove ch k) (n - 1) else .tag r t ch n
  | .rootN r ch n, k =>
    if (dlookup ch k).isSome then .rootN r (dremove ch k) (n - 1) else .rootN r ch n

/-- `FSNode()`: fresh mock directory, `st_nlink` starts at 2. -/
def mkFS : Node := .fs [] 2

/-- `TagNode(root, tags)`: fresh tag node, empty explicit children,
`st_nlink` 2. -/
def mkTag (root : Library) (tags : List String) : Node := .tag root tags [] 2

/-- `RootNode(root)`: after `super().__init__()` the constructor runs
`self[libpath.fuserootdir('')] = libpath.rootdir(root.root)`, so the fresh
node has one explicit string child and `st_nlink` 3. -/
def mkRoot (root : Library) : Node :=
  setitem (.rootN root [] 2) (fuserootdir "") (.str (rootdir root.root))

/-- `TagNode._tagged`: `_uniqmap(self.root.find(self.tags))`.  The fuel
`2 * n` is sufficient whenever the library returns pairwise distinct paths
(the termination theorem below); `none` models a run of the unbounded
Python loop that does not terminate. -/
def tagged (root : Library) (tags : List String) : Option (List (String × String)) :=
  uniqmapGo fuseResolve (2 * (root.find tags).length) (root.find tags) [] []

/-- The mapping-protocol lookup `node[key]`.
* string: `'...'[key]` with a string key raises `TypeError`;
* `FSNode`: `self.children[key]` or `KeyError`;
* `TagNode`: explicit children first, then the computed map
  `self._tagged()[key]`, `KeyError` if absent from both;
* `RootNode`: explicit children first; on a miss the code runs
  `if key in self.files()`, but the method is named `_files`, so the
  attribute lookup `self.files` raises `AttributeError` — the computed
  branch (`os.path.join(self.root.root, key)` for a listed name, a
  `KeyError` otherwise) is unreachable. -/
def getitem : Node → String → Except PyErr Node
  | .str _, _ => .error .typeError
  | .fs ch _, key =>
    match dlookup ch key with
    | some v => .ok v
    | none => .error .keyError
  | .tag root tags ch _, key =>
    match dlookup ch key with
    | some v => .ok v
    | none =>
      match tagged root tags with
      | none => .error .diverge
      | some m =>
        match dlookup m key with
        | some p => .ok (.str p)
        | none => .error .keyError
  | .rootN _ ch _, key =>
    match dlookup ch key with
    | some v => .ok v
    | none => .error .attributeError

/-- The `while path:` loop of `split`: look up the first remaining segment
in the current node; a `KeyError` makes the whole resolution return
`None`; any other exception propagates; a string value stops resolution
returning the current node and the NOT-yet-consumed remainder; a node
value descends. -/
def splitGo : Node → List String → Except PyErr (Option (Node × List String))
  | cur, [] => .ok (some (cur, []))
  | cur, s :: rest =>
    match getitem cur s with
    | .error .keyError => .ok none
    | .error e => .error e
    | .ok (.str _) => .ok (some (cur, s :: rest))
    | .ok a => splitGo a rest

/-- `path.lstrip('/').split('/')` with empty segments filtered out: the
list of nonempty chunks between slashes. -/
def segsAux : List Char → List Char → List String
  | [], cur => if cur.isEmpty then [] else [String.mk cur.reverse]
  | c :: rest, cur =>
    if c = '/' then
      if cur.isEmpty then segsAux rest [] else String.mk cur.reverse :: segsAux rest []
    else segsAux rest (c :: cur)

/-- The segment list `split` works on. -/
def splitPath (p : String) : List String := segsAux p.toList []

/-- `split(tree, path)`: asserts the path is nonempty and absolute, splits
it into segments and walks the tree. -/
def split (tree : Node) (path : String) : Except PyErr (Option (Node × List String)) :=
  match path.toList with
  | [] => .error .assertionError
  | c :: _ => if c = '/' then splitGo tree (splitPath path) else .error .assertionError

/-- `fs2tag(node, root, tags)`: builds `TagNode(root, tags)` (empty
children, `st_nlink` 2) and copies `node.children` into its children dict
directly (`x.children.update(dict(node.children))`), bypassing
`__setitem__`, so `st_nlink` stays 2. -/
def fs2tag (node : Node) (root : Library) (tags : List String) : Node :=
  .tag root tags node.children 2

/-- JSON-compatible values produced by `dump` and consumed by `load`. -/
inductive JVal where
  | str (s : String)
  | jlist (l : List JVal)
  | jdict (m : List (String × JVal))

mutual

/-- `dump`: serializes a node as `[<class name>, (tags,)? {name: child}]`.
A real-path string child has no `dump` method, so serializing it raises
`AttributeError` (in particular every `RootNode`, whose constructor always
inserts a string child, fails to dump). -/
def dump : Node → Except PyErr JVal
  | .str _ => .error .attributeError
  | .fs ch _ =>
    match dumpChildren ch with
    | .ok m => .ok (.jlist [.str "FSNode", .jdict m])
    | .error e => .error e
  | .tag _ tags ch _ =>
    match dumpChildren ch with
    | .ok m => .ok (.jlist [.str "TagNode", .jlist (tags.map JVal.str), .jdict m])
    | .error e => .error e
  | .rootN _ ch _ =>
    match dumpChildren ch with
    | .ok m => .ok (.jlist [.str "RootNode", .jdict m])
    | .error e => .error e

/-- `dict((x, self[x].dump()) for x in self.children)`: serialize the
children in insertion order, the first exception propagating.  (For keys
of `self.children` the lookup `self[x]` always hits the explicit dict, on
every node class.) -/
def dumpChildren : List (String × Node) → Except PyErr (List (String × JVal))
  | [] => .ok []
  | (k, v) :: rest =>
    match dump v with
    | .error e => .error e
    | .ok d =>
      match dumpChildren rest with
      | .error e => .error e
      | .ok r => .ok ((k, d) :: r)

end

/-- Python subscription `v[i]` with a `Nat` index: list indexing
(`IndexError` out of range), string indexing (a one-character string), and
`d[i]` on a string-keyed dict (`KeyError`, an int is not among its keys). -/
def pyIndex : JVal → Nat → Except PyErr JVal
  | .jlist l, i =>
    match l.get? i with
    | some v => .ok v
    | none => .error .indexError
  | .str s, i =>
    match s.toList.get? i with
    | some c => .ok (.str (String.mk [c]))
    | none => .error .indexError
  | .jdict _, _ => .error .keyError

/-- Whether `for k in v:` performs no iteration at all. -/
def JVal.emptyIter : JVal → Bool
  | .str s => s.isEmpty
  | .jlist l => l.isEmpty
  | .jdict m => m.isEmpty

/-- The `_load_map['FSNode']` reconstructor: `x = FSNode(); map = node[1];
for k in map: x[k] = load(map[k])`.  The recursive call passes ONE
argument although `load` is declared `load(root, nodes)`, so the first
iteration raises `TypeError`; only an empty children map reconstructs
(to a fresh empty `FSNode`). -/
def loadFSNode (_root : Library) (node : JVal) : Except PyErr Node :=
  match pyIndex node 1 with
  | .error e => .error e
  | .ok m => if m.emptyIter then .ok (.fs [] 2) else .error .typeError

/-- The `_load_map['TagNode']` reconstructor: `x = TagNode(node[1])` —
`TagNode.__init__(self, root, tags)` needs two arguments, so after
evaluating `node[1]` this always raises `TypeError`. -/
def loadTagNode (_root : Library) (node : JVal) : Except PyErr Node :=
  match pyIndex node 1 with
  | .error e => .error e
  | .ok _ => .error .typeError

/-- The `_load_map['RootNode']` reconstructor: `x = RootNode(root)`
succeeds, then `map = node[2]` — but `RootNode.dump` emits only two
elements, so on dumped data this raises `IndexError`; with a non-empty
third element the one-argument recursive `load` call raises `TypeError`. -/
def loadRootNode (root : Library) (node : JVal) : Except PyErr Node :=
  match pyIndex node 2 with
  | .error e => .error e
  | .ok m => if m.emptyIter then .ok (mkRoot root) else .error .typeError

/-- `load(root, nodes) = _load_map[nodes[0]](root, nodes)`: dispatch on
the leading type tag; an unregistered string tag raises `KeyError`, an
unhashable tag (list/dict) raises `TypeError`. -/
def load (root : Library) (nodes : JVal) : Except PyErr Node :=
  match pyIndex nodes 0 with
  | .error e => .error e
  | .ok (.str t) =>
    if t = "FSNode" then loadFSNode root nodes
    else if t = "TagNode" then loadTagNode root nodes
    else if t = "RootNode" then loadRootNode root nodes
    else .error .keyError
  | .ok _ => .error .typeError

/-- Explicit insert/delete operations of the mapping protocol, for stating
the link-count invariant. -/
inductive FOp where
  | assign (k : String) (v : Node)
  | remove (k : String)

/-- Apply one mapping-protocol operation (a failed delete raises but
leaves the node unchanged, which is what the state sees). -/
def applyOp : Node → FOp → Node
  | n, .assign k v => setitem n k v
  | n, .remove k => delitem n k

/-- Apply a sequence of operations left to right. -/
def applyOps (n : Node) (ops : List FOp) : Node := List.foldl applyOp n ops

/-- A sequence of operations in which no assignment overwrites an
already-present explicit child (deletes are unrestricted). -/
def okSeq : Node → List FOp → Bool
  | _, [] => true
  | n, .assign k v :: ops => (dlookup n.children k).isNone && okSeq (setitem n k v) ops
  | n, .remove k :: ops => okSeq (delitem n k) ops

/-- Weight of a queued path in the termination measure of `_uniqmap`: a
path whose basename was already seen will be stored on its (unique)
alternate name and never requeued, so it costs one more iteration; a fresh
basename may cost two. -/
def fWeight (seen : List String) (f : String) : Nat :=
  if basename f ∈ seen then 1 else 2

/-- Weight of a stored map entry: an entry keyed by its value's alternate
name can never be evicted again (the alternate-name function being
injective), an entry keyed by a basename can be evicted once. -/
def eWeight (fr : String → String) (e : String × String) : Nat :=
  if e.1 = fr e.2 then 0 else 1

/-- Termination measure of the `_uniqmap` loop: total remaining iterations
are bounded by the queue weights plus the evictable stored entries. -/
def stMeasure (fr : String → String) (files : List String)
    (map : List (String × String)) (seen : List String) : Nat :=
  (files.map (fWeight seen)).sum + (map.map (eWeight fr)).sum

/-- The loop invariant of `_uniqmap`: stored keys are unique and all
recorded as seen, stored values have seen basenames, and all paths in
flight (queued or stored) are pairwise distinct with pairwise distinct
alternate names. -/
structure UInv (fr : String → String) (files : List String)
    (map : List (String × String)) (seen : List String) : Prop where
  keysNodup : (map.map Prod.fst).Nodup
  keysSeen : ∀ k ∈ map.map Prod.fst, k ∈ seen
  valsSeen : ∀ v ∈ map.map Prod.snd, basename v ∈ seen
  allNodup : (files ++ map.map Prod.snd).Nodup
  inj : ∀ a ∈ files ++ map.map Prod.snd, ∀ b ∈ files ++ map.map Prod.snd,
      fr a = fr b → a = b

/-- A concrete Library value for evaluating concrete runs. -/
def dummyLib : Library := ⟨fun _ => [], "/lib", []⟩

/-- A Library whose storage root contains one file, for exercising the
computed-children branch of `RootNode`. -/
def songLib : Library := ⟨fun _ => [], "/lib", ["song.mp3"]⟩

/-! ### Association-list lemmas -/

theorem dlookup_eq_none {α : Type} (m : List (String × α)) (k : String) :
    dlookup m k = none ↔ k ∉ m.map Prod.fst := by
  induction m with
  | nil => simp [dlookup]
  | cons e rest ih =>
    obtain ⟨k', v'⟩ := e
    by_cases h : k' = k
    · subst h
      simp [dlookup]
    · simp [dlookup, h, ih, Ne.symm h]

theorem dinsert_of_not_mem {α : Type} {m : List (String × α)} {k : String}
    (h : k ∉ m.map Prod.fst) (v : α) : dinsert m k v = m ++ [(k, v)] := by
  induction m with
  | nil => simp [dinsert]
  | cons e rest ih =>
    obtain ⟨k', v'⟩ := e
    simp only [List.map_cons, List.mem_cons] at h
    push_neg at h
    simp [dinsert, Ne.symm h.1, ih h.2]

theorem dlookup_some_decomp {α : Type} {m : List (String × α)} {k : String} {old : α}
    (h : dlookup m k = some old) :
    ∃ A B, m = A ++ (k, old) :: B ∧ k ∉ A.map Prod.fst ∧
      ∀ v, dinsert m k v = A ++ (k, v) :: B := by
  induction m with
  | nil => simp [dlookup] at h
  | cons e rest ih =>
    obtain ⟨k', v'⟩ := e
    by_cases hk : k' = k
    · subst hk
      have hv : v' = old := by simpa [dlookup] using h
      subst hv
      exact ⟨[], rest, by simp, by simp, fun v => by simp [dinsert]⟩
    · simp only [dlookup, if_neg hk] at h
      obtain ⟨A, B, hm, hA, hins⟩ := ih h
      refine ⟨(k', v') :: A, B, by simp [hm], ?_, fun v => by simp [dinsert, hk, hins v]⟩
      simp only [List.map_cons, List.mem_cons]
      push_neg
      exact ⟨Ne.symm hk, hA⟩

theorem dlookup_dinsert_self {α : Type} (m : List (String × α)) (k : String) (v : α) :
    dlookup (dinsert m k v) k = some v := by
  induction m with
  | nil => simp [dinsert, dlookup]
  | cons e rest ih =>
    obtain ⟨k', v'⟩ := e
    by_cases h : k' = k
    · simp [dinsert, dlookup, h]
    · simp [dinsert, dlookup, h, ih]

theorem dremove_length_of_mem {α : Type} {m : List (String × α)} {k : String} {v : α}
    (h : dlookup m k = some v) : (dremove m k).length + 1 = m.length := by
  induction m with
  | nil => simp [dlookup] at h
  | cons e rest ih =>
    obtain ⟨k', v'⟩ := e
    by_cases hk : k' = k
    · simp [dremove, hk]
    · simp only [dlookup, if_neg hk] at h
      simp [dremove, hk, ih h]

theorem dinsert_length_of_not_mem {α : Type} {m : List (String × α)} {k : String}
    (h : k ∉ m.map Prod.fst) (v : α) : (dinsert m k v).length = m.length + 1 := by
  rw [dinsert_of_not_mem h v]
  simp

/-! ### The link-count invariant (claim C3) -/

theorem setitem_not_str {n : Node} (h : n.isStr = false) (k : String) (v : Node) :
    (setitem n k v).isStr = false ∧
    (setitem n k v).children = dinsert n.children k v ∧
    (setitem n k v).nlink = n.nlink + 1 := by
  cases n with
  | str s => simp [Node.isStr] at h
  | fs ch nl => exact ⟨rfl, rfl, rfl⟩
  | tag r t ch nl => exact ⟨rfl, rfl, rfl⟩
  | rootN r ch nl => exact ⟨rfl, rfl, rfl⟩

theorem delitem_not_str {n : Node} (h : n.isStr = false) (k : String) :
    (delitem n k).isStr = false ∧
    ((dlookup n.children k).isSome →
      (delitem n k).children = dremove n.children k ∧ (delitem n k).nlink = n.nlink - 1) ∧
    ((dlookup n.children k).isNone → delitem n k = n) := by
  cases n with
  | str s => simp [Node.isStr] at h
  | fs ch nl =>
    by_cases hk : (dlookup ch k).isSome
    · refine ⟨?_, fun _ => ⟨?_, ?_⟩, fun hn => ?_⟩ <;>
        simp_all [delitem, Node.children, Node.nlink, Node.isStr, Option.isNone_iff_eq_none]
    · refine ⟨?_, fun hs => ?_, fun _ => ?_⟩ <;>
        simp_all [delitem, Node.children, Node.nlink, Node.isStr]
  | tag r t ch nl =>
    by_cases hk : (dlookup ch k).isSome
    · refine ⟨?_, fun _ => ⟨?_, ?_⟩, fun hn => ?_⟩ <;>
        simp_all [delitem, Node.children, Node.nlink, Node.isStr, Option.isNone_iff_eq_none]
    · refine ⟨?_, fun hs => ?_, fun _ => ?_⟩ <;>
        simp_all [delitem, Node.children, Node.nlink, Node.isStr]
  | rootN r ch nl =>
    by_cases hk : (dlookup ch k).isSome
    · refine ⟨?_, fun _ => ⟨?_, ?_⟩, fun hn => ?_⟩ <;>
        simp_all [delitem, Node.children, Node.nlink, Node.isStr, Option.isNone_iff_eq_none]
    · refine ⟨?_, fun hs => ?_, fun _ => ?_⟩ <;>
        simp_all [delitem, Node.children, Node.nlink, Node.isStr]

theorem nlink_invariant_general (ops : List FOp) :
    ∀ n : Node, n.isStr = false → n.nlink = 2 + n.children.length →
      okSeq n ops = true →
      (applyOps n ops).nlink = 2 + (applyOps n ops).children.length := by
  induction ops with
  | nil => intro n _ hn _; simpa [applyOps] using hn
  | cons op ops ih =>
    intro n hstr hn hok
    cases op with
    | assign k v =>
      simp only [okSeq, Bool.and_eq_true, Option.isNone_iff_eq_none] at hok
      obtain ⟨hfresh, hok⟩ := hok
      have hset := setitem_not_str hstr k v
      have hlen : (setitem n k v).children.length = n.children.length + 1 := by
        rw [hset.2.1, dinsert_length_of_not_mem ((dlookup_eq_none _ _).1 hfresh) v]
      have : applyOps n (.assign k v :: ops) = applyOps (setitem n k v) ops := rfl
      rw [this]
      exact ih (setitem n k v) hset.1 (by rw [hset.2.2, hlen, hn]; omega) hok
    | remove k =>
      simp only [okSeq] at hok
      have hdel := delitem_not_str hstr k
      have hsteps : applyOps n (.remove k :: ops) = applyOps (delitem n k) ops := rfl
      rw [hsteps]
      cases hv : dlookup n.children k with
      | none =>
        have heq : delitem n k = n := hdel.2.2 (by simp [hv])
        rw [heq] at hok ⊢
        exact ih n hstr hn hok
      | some v =>
        obtain ⟨hch, hnl⟩ := hdel.2.1 (by simp [hv])
        have hlen := dremove_length_of_mem hv
        exact ih (delitem n k) hdel.1 (by rw [hnl, hch, hn]; omega) hok

/-! ### Termination and correctness of the collision resolver -/

theorem one_le_fWeight (seen : List String) (f : String) : 1 ≤ fWeight seen f := by
  unfold fWeight
  split <;> omega

theorem fWeight_append_le (seen ext : List String) (f : String) :
    fWeight (seen ++ ext) f ≤ fWeight seen f := by
  unfold fWeight
  by_cases h : basename f ∈ seen
  · rw [if_pos h, if_pos (List.mem_append_left _ h)]
  · rw [if_neg h]
    split <;> omega

theorem sum_fWeight_append_le (seen ext : List String) (fs : List String) :
    (fs.map (fWeight (seen ++ ext))).sum ≤ (fs.map (fWeight seen)).sum := by
  induction fs with
  | nil => simp
  | cons f fs ih =>
    simp only [List.map_cons, List.sum_cons]
    exact Nat.add_le_add (fWeight_append_le seen ext f) ih

theorem perm_snoc_middle (fs vals : List String) (f : String) :
    (fs ++ (vals ++ [f])).Perm (f :: (fs ++ vals)) := by
  refine List.perm_iff_count.2 fun a => ?_
  simp [List.count_append, List.count_cons]
  omega

theorem perm_evict (fs va vb : List String) (f old : String) :
    ((fs ++ [old]) ++ (va ++ f :: vb)).Perm (f :: (fs ++ (va ++ old :: vb))) := by
  refine List.perm_iff_count.2 fun a => ?_
  simp [List.count_append, List.count_cons]
  omega

theorem uniq_branch_fresh (fr : String → String) {f : String} {fs : List String}
    {map : List (String × String)} {seen : List String}
    (hinv : UInv fr (f :: fs) map seen) (hname : basename f ∉ seen) :
    dinsert map (basename f) f = map ++ [(basename f, f)] ∧
    UInv fr fs (map ++ [(basename f, f)]) (seen ++ [basename f]) ∧
    stMeasure fr fs (map ++ [(basename f, f)]) (seen ++ [basename f]) + 1 ≤
      stMeasure fr (f :: fs) map seen := by
  have hkeys : basename f ∉ map.map Prod.fst := fun h => hname (hinv.keysSeen _ h)
  refine ⟨dinsert_of_not_mem hkeys f, ⟨?_, ?_, ?_, ?_, ?_⟩, ?_⟩
  · rw [List.map_append]
    refine List.Nodup.append hinv.keysNodup (by simp) ?_
    intro a ha hb
    simp only [List.map_cons, List.map_nil, List.mem_singleton] at hb
    exact hkeys (hb ▸ ha)
  · intro k hk
    rw [List.map_append] at hk
    rcases List.mem_append.1 hk with h | h
    · exact List.mem_append_left _ (hinv.keysSeen _ h)
    · simp only [List.map_cons, List.map_nil, List.mem_singleton] at h
      subst h
      exact List.mem_append_right _ (by simp)
  · intro v hv
    rw [List.map_append] at hv
    rcases List.mem_append.1 hv with h | h
    · exact List.mem_append_left _ (hinv.valsSeen _ h)
    · simp only [List.map_cons, List.map_nil, List.mem_singleton] at h
      subst h
      exact List.mem_append_right _ (by simp)
  · rw [List.map_append]
    exact (perm_snoc_middle fs (map.map Prod.snd) f).symm.nodup hinv.allNodup
  · intro a ha b hb hfr
    rw [List.map_append] at ha hb
    exact hinv.inj a ((perm_snoc_middle fs (map.map Prod.snd) f).subset ha)
      b ((perm_snoc_middle fs (map.map Prod.snd) f).subset hb) hfr
  · have h1 := sum_fWeight_append_le seen [basename f] fs
    have h2 : eWeight fr (basename f, f) ≤ 1 := by unfold eWeight; split <;> omega
    have h3 : fWeight seen f = 2 := if_neg hname
    simp only [stMeasure, List.map_append, List.sum_append, List.map_cons, List.sum_cons,
      List.map_nil, List.sum_nil]
    omega

theorem uniq_branch_alt (fr : String → String) {f : String} {fs : List String}
    {map : List (String × String)} {seen : List String}
    (hinv : UInv fr (f :: fs) map seen) (hname : basename f ∈ seen)
    (hfree : dlookup map (fr f) = none) :
    dinsert map (fr f) f = map ++ [(fr f, f)] ∧
    UInv fr fs (map ++ [(fr f, f)]) (seen ++ [fr f]) ∧
    stMeasure fr fs (map ++ [(fr f, f)]) (seen ++ [fr f]) + 1 ≤
      stMeasure fr (f :: fs) map seen := by
  have hkeys : fr f ∉ map.map Prod.fst := (dlookup_eq_none _ _).1 hfree
  refine ⟨dinsert_of_not_mem hkeys f, ⟨?_, ?_, ?_, ?_, ?_⟩, ?_⟩
  · rw [List.map_append]
    refine List.Nodup.append hinv.keysNodup (by simp) ?_
    intro a ha hb
    simp only [List.map_cons, List.map_nil, List.mem_singleton] at hb
    exact hkeys (hb ▸ ha)
  · intro k hk
    rw [List.map_append] at hk
    rcases List.mem_append.1 hk with h | h
    · exact List.mem_append_left _ (hinv.keysSeen _ h)
    · simp only [List.map_cons, List.map_nil, List.mem_singleton] at h
      subst h
      exact List.mem_append_right _ (by simp)
  · intro v hv
    rw [List.map_append] at hv
    rcases List.mem_append.1 hv with h | h
    · exact List.mem_append_left _ (hinv.valsSeen _ h)
    · simp only [List.map_cons, List.map_nil, List.mem_singleton] at h
      subst h
      exact List.mem_append_left _ hname
  · rw [List.map_append]
    exact (perm_snoc_middle fs (map.map Prod.snd) f).symm.nodup hinv.allNodup
  · intro a ha b hb hfr
    rw [List.map_append] at ha hb
    exact hinv.inj a ((perm_snoc_middle fs (map.map Prod.snd) f).subset ha)
      b ((perm_snoc_middle fs (map.map Prod.snd) f).subset hb) hfr
  · have h1 := sum_fWeight_append_le seen [fr f] fs
    have h2 : eWeight fr (fr f, f) = 0 := if_pos rfl
    have h3 : fWeight seen f = 1 := if_pos hname
    simp only [stMeasure, List.map_append, List.sum_append, List.map_cons, List.sum_cons,
      List.map_nil, List.sum_nil]
    omega

theorem uniq_branch_evict (fr : String → String) {f old : String} {fs : List String}
    {map : List (String × String)} {seen : List String}
    (hinv : UInv fr (f :: fs) map seen) (hname : basename f ∈ seen)
    (hocc : dlookup map (fr f) = some old) :
    ∃ A B, map = A ++ (fr f, old) :: B ∧
      dinsert map (fr f) f = A ++ (fr f, f) :: B ∧
      UInv fr (fs ++ [old]) (A ++ (fr f, f) :: B) (seen ++ [fr f]) ∧
      stMeasure fr (fs ++ [old]) (A ++ (fr f, f) :: B) (seen ++ [fr f]) + 1 ≤
        stMeasure fr (f :: fs) map seen := by
  obtain ⟨A, B, hm, hA, hins⟩ := dlookup_some_decomp hocc
  have hvals : map.map Prod.snd = A.map Prod.snd ++ old :: B.map Prod.snd := by
    rw [hm]; simp
  have hkeys : map.map Prod.fst = A.map Prod.fst ++ fr f :: B.map Prod.fst := by
    rw [hm]; simp
  have hold_mem : old ∈ map.map Prod.snd := by rw [hvals]; simp
  have hf_ne_old : f ≠ old := by
    intro h
    have hnc := List.nodup_cons.1 hinv.allNodup
    exact hnc.1 (h ▸ List.mem_append_right _ hold_mem)
  have hfr_ne : fr f ≠ fr old := by
    intro h
    exact hf_ne_old (hinv.inj f (List.mem_append_left _ (by simp))
      old (List.mem_append_right _ hold_mem) h)
  have hperm := perm_evict fs (A.map Prod.snd) (B.map Prod.snd) f old
  refine ⟨A, B, hm, hins f, ⟨?_, ?_, ?_, ?_, ?_⟩, ?_⟩
  · have : (A ++ (fr f, f) :: B).map Prod.fst = map.map Prod.fst := by
      rw [hkeys]; simp
    rw [this]
    exact hinv.keysNodup
  · intro k hk
    have : (A ++ (fr f, f) :: B).map Prod.fst = map.map Prod.fst := by
      rw [hkeys]; simp
    rw [this] at hk
    exact List.mem_append_left _ (hinv.keysSeen _ hk)
  · intro v hv
    simp only [List.map_append, List.map_cons, List.mem_append, List.mem_cons] at hv
    rcases hv with h | h | h
    · exact List.mem_append_left _ (hinv.valsSeen _ (by rw [hvals]; simp [h]))
    · subst h
      exact List.mem_append_left _ hname
    · exact List.mem_append_left _ (hinv.valsSeen _ (by rw [hvals]; simp [h]))
  · have hsrc : (f :: (fs ++ (A.map Prod.snd ++ old :: B.map Prod.snd))).Nodup := by
      have := hinv.allNodup
      rw [hvals] at this
      exact this
    have : ((fs ++ [old]) ++ (A ++ (fr f, f) :: B).map Prod.snd).Nodup := by
      rw [show (A ++ (fr f, f) :: B).map Prod.snd = A.map Prod.snd ++ f :: B.map Prod.snd by simp]
      exact hperm.symm.nodup hsrc
    exact this
  · intro a ha b hb hfr
    rw [show (A ++ (fr f, f) :: B).map Prod.snd = A.map Prod.snd ++ f :: B.map Prod.snd by simp]
      at ha hb
    have hmem : ∀ x, x ∈ (fs ++ [old]) ++ (A.map Prod.snd ++ f :: B.map Prod.snd) →
        x ∈ (f :: fs) ++ map.map Prod.snd := by
      intro x hx
      have := hperm.subset hx
      rw [hvals]
      exact this
    exact hinv.inj a (hmem a ha) b (hmem b hb) hfr
  · have h1 := sum_fWeight_append_le seen [fr f] fs
    have h2 : eWeight fr (fr f, f) = 0 := if_pos rfl
    have h3 : fWeight seen f = 1 := if_pos hname
    have h4 : eWeight fr (fr f, old) = 1 := if_neg hfr_ne
    have h5 : fWeight (seen ++ [fr f]) old = 1 :=
      if_pos (List.mem_append_left _ (hinv.valsSeen _ hold_mem))
    rw [hm]
    simp only [stMeasure, List.map_append, List.sum_append, List.map_cons, List.sum_cons,
      List.map_nil, List.sum_nil]
    omega

theorem uniqmapGo_cons (fr : String → String) (fuel : Nat) (f : String)
    (fs : List String) (map : List (String × String)) (seen : List String) :
    uniqmapGo fr (fuel + 1) (f :: fs) map seen =
      if basename f ∈ seen then
        match dlookup map (fr f) with
        | some old => uniqmapGo fr fuel (fs ++ [old]) (dinsert map (fr f) f) (seen ++ [fr f])
        | none => uniqmapGo fr fuel fs (dinsert map (fr f) f) (seen ++ [fr f])
      else uniqmapGo fr fuel fs (dinsert map (basename f) f) (seen ++ [basename f]) := rfl

theorem uniqmapGo_total (fr : String → String) :
    ∀ fuel files map seen, UInv fr files map seen →
      stMeasure fr files map seen ≤ fuel →
      (uniqmapGo fr fuel files map seen).isSome = true := by
  intro fuel
  induction fuel with
  | zero =>
    intro files map seen _ hμ
    cases files with
    | nil => rfl
    | cons f fs =>
      exfalso
      have h1 := one_le_fWeight seen f
      simp only [stMeasure, List.map_cons, List.sum_cons] at hμ
      omega
  | succ n ih =>
    intro files map seen hinv hμ
    cases files with
    | nil => rfl
    | cons f fs =>
      rw [uniqmapGo_cons]
      by_cases hname : basename f ∈ seen
      · rw [if_pos hname]
        cases hocc : dlookup map (fr f) with
        | some old =>
          obtain ⟨A, B, hm, hins, hinv2, hμ2⟩ := uniq_branch_evict fr hinv hname hocc
          rw [hins]
          exact ih _ _ _ hinv2 (by omega)
        | none =>
          obtain ⟨hins, hinv2, hμ2⟩ := uniq_branch_alt fr hinv hname hocc
          rw [hins]
          exact ih _ _ _ hinv2 (by omega)
      · rw [if_neg hname]
        obtain ⟨hins, hinv2, hμ2⟩ := uniq_branch_fresh fr hinv hname
        rw [hins]
        exact ih _ _ _ hinv2 (by omega)

theorem uniqmapGo_perm (fr : String → String) :
    ∀ fuel files map seen m, UInv fr files map seen →
      uniqmapGo fr fuel files map seen = some m →
      (m.map Prod.fst).Nodup ∧ (m.map Prod.snd).Perm (files ++ map.map Prod.snd) := by
  intro fuel
  induction fuel with
  | zero =>
    intro files map seen m hinv heq
    cases files with
    | nil =>
      obtain rfl := Option.some.inj heq
      exact ⟨hinv.keysNodup, by simp⟩
    | cons f fs => exact Option.noConfusion heq
  | succ n ih =>
    intro files map seen m hinv heq
    cases files with
    | nil =>
      obtain rfl := Option.some.inj heq
      exact ⟨hinv.keysNodup, by simp⟩
    | cons f fs =>
      rw [uniqmapGo_cons] at heq
      by_cases hname : basename f ∈ seen
      · rw [if_pos hname] at heq
        cases hocc : dlookup map (fr f) with
        | some old =>
          rw [hocc] at heq
          obtain ⟨A, B, hm, hins, hinv2, hμ2⟩ := uniq_branch_evict fr hinv hname hocc
          rw [hins] at heq
          obtain ⟨hnd, hperm⟩ := ih _ _ _ _ hinv2 heq
          refine ⟨hnd, hperm.trans ?_⟩
          rw [show (A ++ (fr f, f) :: B).map Prod.snd =
            A.map Prod.snd ++ f :: B.map Prod.snd by simp]
          have := perm_evict fs (A.map Prod.snd) (B.map Prod.snd) f old
          rw [show map.map Prod.snd = A.map Prod.snd ++ old :: B.map Prod.snd by rw [hm]; simp]
          exact this
        | none =>
          rw [hocc] at heq
          obtain ⟨hins, hinv2, hμ2⟩ := uniq_branch_alt fr hinv hname hocc
          rw [hins] at heq
          obtain ⟨hnd, hperm⟩ := ih _ _ _ _ hinv2 heq
          refine ⟨hnd, hperm.trans ?_⟩
          rw [List.map_append]
          simpa using perm_snoc_middle fs (map.map Prod.snd) f
      · rw [if_neg hname] at heq
        obtain ⟨hins, hinv2, hμ2⟩ := uniq_branch_fresh fr hinv hname
        rw [hins] at heq
        obtain ⟨hnd, hperm⟩ := ih _ _ _ _ hinv2 heq
        refine ⟨hnd, hperm.trans ?_⟩
        rw [List.map_append]
        simpa using perm_snoc_middle fs (map.map Prod.snd) f

theorem uinv_init (fr : String → String) (files : List String)
    (hnd : files.Nodup)
    (hinj : ∀ a ∈ files, ∀ b ∈ files, fr a = fr b → a = b) :
    UInv fr files [] [] := by
  refine ⟨by simp, by simp, by simp, by simpa using hnd, ?_⟩
  simpa using hinj

theorem stMeasure_init (fr : String → String) (files : List String) :
    stMeasure fr files [] [] = 2 * files.length := by
  induction files with
  | nil => simp [stMeasure]
  | cons f fs ih =>
    simp only [stMeasure, List.map_cons, List.sum_cons, List.map_nil, List.sum_nil,
      List.length_cons] at ih ⊢
    have : fWeight [] f = 2 := by simp [fWeight]
    omega

/-! ### Claim theorems -/

/-- C1 (code_bug evidence): the round-trip `load(lib, dump(t))` does NOT
reproduce the tree.  For the two-node tree `FSNode` with one empty
`FSNode` child named `a`, `dump` succeeds, but `load` raises `TypeError`:
the reconstructor's recursive call `load(map[k])` passes one argument
while `load` is declared `load(root, nodes)`.  (Trees with string children
already fail in `dump`, and any dumped `TagNode`/`RootNode` fails in its
reconstructor, so only a childless `FSNode` round-trips.) -/
theorem c1_roundtrip_typeError :
    dump (Node.fs [("a", Node.fs [] 2)] 3) =
      .ok (.jlist [.str "FSNode", .jdict [("a", .jlist [.str "FSNode", .jdict []])]]) ∧
    load dummyLib (.jlist [.str "FSNode", .jdict [("a", .jlist [.str "FSNode", .jdict []])]]) =
      .error .typeError := by
  constructor
  · simp [dump, dumpChildren]
  · rfl

/-- C2: for pairwise distinct input paths (and the alternate-name
function injective on them, which the spec guarantees for
`fuse_resolve`), `_uniqmap` drains its queue within `2·N` iterations and
returns a map with exactly `N` entries, pairwise distinct names, pairwise
distinct values, and whose values are exactly the input paths (each
appearing once). -/
theorem c2_uniqmap_bijection (fr : String → String) (files : List String)
    (hnd : files.Nodup)
    (hinj : ∀ a ∈ files, ∀ b ∈ files, fr a = fr b → a = b) :
    ∃ m, uniqmapGo fr (2 * files.length) files [] [] = some m ∧
      m.length = files.length ∧
      (m.map Prod.fst).Nodup ∧
      (m.map Prod.snd).Nodup ∧
      (m.map Prod.snd).Perm files := by
  have hinv := uinv_init fr files hnd hinj
  have htot := uniqmapGo_total fr (2 * files.length) files [] [] hinv
    (by rw [stMeasure_init])
  obtain ⟨m, hm⟩ := Option.isSome_iff_exists.1 htot
  obtain ⟨hnd2, hperm⟩ := uniqmapGo_perm fr _ _ _ _ _ hinv hm
  rw [List.map_nil, List.append_nil] at hperm
  have hlen : m.length = files.length := by
    have := hperm.length_eq
    simpa using this
  exact ⟨m, hm, hlen, hnd2, hperm.symm.nodup hnd, hperm⟩

/-- Witness for C2 at the spec's own example `/a/x`, `/b/x`. -/
theorem c2_uniqmap_bijection_witness :
    (["/a/x", "/b/x"] : List String).Nodup ∧
    (∀ a ∈ (["/a/x", "/b/x"] : List String), ∀ b ∈ (["/a/x", "/b/x"] : List String),
      (fun p => p) a = (fun p => p) b → a = b) ∧
    (∃ m, uniqmapGo (fun p => p) (2 * (["/a/x", "/b/x"] : List String).length)
        ["/a/x", "/b/x"] [] [] = some m ∧
      m.length = (["/a/x", "/b/x"] : List String).length ∧
      (m.map Prod.fst).Nodup ∧
      (m.map Prod.snd).Nodup ∧
      (m.map Prod.snd).Perm ["/a/x", "/b/x"]) :=
  ⟨by decide, fun a _ b _ h => h,
    c2_uniqmap_bijection (fun p => p) ["/a/x", "/b/x"] (by decide) (fun a _ b _ h => h)⟩

/-- C3 (counterexample): assigning an already-present name increments
`st_nlink` again — after `n["a"] = v; n["a"] = v` the link count is 4 but
there is one explicit child, violating `nlink = 2 + #children`. -/
theorem c3_counterexample :
    (applyOps mkFS [.assign "a" mkFS, .assign "a" mkFS]).nlink = 4 ∧
    (applyOps mkFS [.assign "a" mkFS, .assign "a" mkFS]).children.length = 1 ∧
    (applyOps mkFS [.assign "a" mkFS, .assign "a" mkFS]).nlink ≠
      2 + (applyOps mkFS [.assign "a" mkFS, .assign "a" mkFS]).children.length :=
  ⟨rfl, rfl, by decide⟩

/-- C3 (amended): `__setitem__` increments the link count
unconditionally, so the invariant `st_nlink = 2 + #explicit children`
holds for exactly those operation sequences in which no assignment
overwrites an already-present name (deletes are unrestricted: a delete of
a missing name raises `KeyError` and leaves the node unchanged). -/
theorem c3_nlink_invariant (ops : List FOp) (hok : okSeq mkFS ops = true) :
    (applyOps mkFS ops).nlink = 2 + (applyOps mkFS ops).children.length :=
  nlink_invariant_general ops mkFS rfl rfl hok

/-- Witness for C3 on an insert/delete/insert/failing-delete sequence. -/
theorem c3_nlink_invariant_witness :
    okSeq mkFS [.assign "a" mkFS, .remove "a", .assign "b" mkFS, .remove "zzz"] = true ∧
    (applyOps mkFS [.assign "a" mkFS, .remove "a", .assign "b" mkFS, .remove "zzz"]).nlink =
      2 + (applyOps mkFS
        [.assign "a" mkFS, .remove "a", .assign "b" mkFS, .remove "zzz"]).children.length :=
  ⟨by decide, c3_nlink_invariant _ (by decide)⟩

/-- C4: whenever the `split` loop finds that the value matched for the
current segment is a real-path string, it stops and returns the current
node together with the whole remaining segment list — the first element of
the returned remainder is exactly the segment that matched the boundary
value; the matched segment is not consumed. -/
theorem c4_border_not_consumed (cur : Node) (s : String) (rest : List String) (p : String)
    (h : getitem cur s = .ok (.str p)) :
    splitGo cur (s :: rest) = .ok (some (cur, s :: rest)) := by
  have hstep : splitGo cur (s :: rest) =
      match getitem cur s with
      | .error .keyError => .ok none
      | .error e => .error e
      | .ok (.str _) => .ok (some (cur, s :: rest))
      | .ok a => splitGo a rest := rfl
  rw [hstep, h]

/-- Witness for C4: a directory with a real-path child `a`; resolving
`["a", "sub"]` stops at the directory with `a` still first in the
remainder. -/
theorem c4_border_not_consumed_witness :
    getitem (Node.fs [("a", Node.str "/r/a")] 3) "a" = .ok (.str "/r/a") ∧
    splitGo (Node.fs [("a", Node.str "/r/a")] 3) ["a", "sub"] =
      .ok (some (Node.fs [("a", Node.str "/r/a")] 3, ["a", "sub"])) :=
  ⟨rfl, c4_border_not_consumed (Node.fs [("a", Node.str "/r/a")] 3) "a" ["sub"] "/r/a" rfl⟩

/-- C5 (code_bug evidence): `split` on a `RootNode` tree with an unknown
first segment does NOT return the `None` outcome: the lookup inside the
loop raises `AttributeError` (because `RootNode.__getitem__` calls the
undefined `self.files` — the method is named `_files`), and `split`
catches only `KeyError`, so the exception propagates out of `split`. -/
theorem c5_split_attributeError :
    splitPath "/nosuch" = ["nosuch"] ∧
    dlookup (mkRoot dummyLib).children "nosuch" = none ∧
    split (mkRoot dummyLib) "/nosuch" = .error .attributeError :=
  ⟨rfl, rfl, rfl⟩

/-- C6 (code_bug evidence): on a `RootNode`, a name that is absent from
the explicit children but present in the library root's listing (i.e. a
computed child) is NOT returned by `__getitem__`, nor does a `KeyError`
occur: the lookup raises `AttributeError`, because the code calls
`self.files()` while the method is named `_files`. -/
theorem c6_rootnode_attributeError :
    dlookup (mkRoot songLib).children "song.mp3" = none ∧
    "song.mp3" ∈ songLib.listing ∧
    getitem (mkRoot songLib) "song.mp3" = .error .attributeError :=
  ⟨rfl, by simp [songLib], rfl⟩

/-- C7 (counterexample): the evicted path is NOT put on the front of the
work queue.  Running the code's loop (`uniqmapGo`, eviction to the back)
and the spec's loop (`uniqmapGoFront`, eviction to the front) on the same
input with the same alternate-name function gives different result maps. -/
theorem c7_counterexample :
    uniqmapGo (fun p => if p = "p/x" then "x" else "r") 10 ["x", "p/x", "q/y"] [] [] ≠
      uniqmapGoFront (fun p => if p = "p/x" then "x" else "r") 10 ["x", "p/x", "q/y"] [] [] := by
  decide

/-- C7 (amended): on a collision whose alternate name is already occupied,
the previously stored path is evicted onto the BACK of the work queue
(`files.append`), i.e. it is reprocessed only after every currently queued
path; the current path takes over the occupied slot (the new map maps the
alternate name to it), and the alternate name is recorded as seen. -/
theorem c7_evict_to_back (fr : String → String) (fuel : Nat) (f old : String)
    (files : List String) (map : List (String × String)) (seen : List String)
    (hseen : basename f ∈ seen) (hocc : dlookup map (fr f) = some old) :
    uniqmapGo fr (fuel + 1) (f :: files) map seen =
      uniqmapGo fr fuel (files ++ [old]) (dinsert map (fr f) f) (seen ++ [fr f]) ∧
    dlookup (dinsert map (fr f) f) (fr f) = some f := by
  constructor
  · rw [uniqmapGo_cons, if_pos hseen, hocc]
  · exact dlookup_dinsert_self map (fr f) f

/-- Witness for C7 at a concrete eviction step. -/
theorem c7_evict_to_back_witness :
    basename "a/x" ∈ ["x"] ∧
    dlookup [("n", "b/x")] ((fun _ => "n") "a/x") = some "b/x" ∧
    (uniqmapGo (fun _ => "n") 1 ["a/x"] [("n", "b/x")] ["x"] =
      uniqmapGo (fun _ => "n") 0 ([] ++ ["b/x"])
        (dinsert [("n", "b/x")] ((fun _ => "n") "a/x") "a/x") (["x"] ++ [(fun _ => "n") "a/x"]) ∧
    dlookup (dinsert [("n", "b/x")] ((fun _ => "n") "a/x") "a/x") ((fun _ => "n") "a/x") =
      some "a/x") :=
  ⟨by decide, by decide,
    c7_evict_to_back (fun _ => "n") 0 "a/x" "b/x" [] [("n", "b/x")] ["x"] (by decide) (by decide)⟩

/-- C8 (counterexample): `_uniqmap` does NOT terminate on every finite
input list of real paths: with the same path three times in the input, the
third copy's alternate name is already occupied by the second, each evicts
the other forever, and no amount of fuel drains the queue. -/
theorem c8_counterexample :
    uniqmapLoopsForever fuseResolve ["/a/x", "/a/x", "/a/x"] := by
  have key : ∀ fuel map seen, basename "/a/x" ∈ seen →
      dlookup map "/a/x" = some "/a/x" →
      uniqmapGo fuseResolve fuel ["/a/x"] map seen = none := by
    intro fuel
    induction fuel with
    | zero => intro map seen _ _; rfl
    | succ n ih =>
      intro map seen hseen hocc
      rw [uniqmapGo_cons, if_pos hseen]
      have hfr : fuseResolve "/a/x" = "/a/x" := rfl
      rw [hfr, hocc]
      exact ih _ _ (List.mem_append_left _ hseen) (dlookup_dinsert_self map "/a/x" "/a/x")
  intro fuel
  match fuel with
  | 0 => rfl
  | 1 => rfl
  | 2 => rfl
  | n + 3 =>
    have hstep : uniqmapGo fuseResolve (n + 3) ["/a/x", "/a/x", "/a/x"] [] [] =
        uniqmapGo fuseResolve (n + 1) ["/a/x"]
          [("x", "/a/x"), ("/a/x", "/a/x")] ["x", "/a/x"] := rfl
    rw [hstep]
    exact key (n + 1) _ _ (by decide) (by decide)

/-- C8 (amended): on every finite list of pairwise distinct real paths —
and with the alternate-name function injective on them, as the spec's
disambiguation guarantee for `fuse_resolve` provides — the `_uniqmap` loop
drains its queue (each path is dequeued at most twice, so `2·N` iterations
suffice). -/
theorem c8_terminates (fr : String → String) (files : List String)
    (hnd : files.Nodup)
    (hinj : ∀ a ∈ files, ∀ b ∈ files, fr a = fr b → a = b) :
    (uniqmapGo fr (2 * files.length) files [] []).isSome = true :=
  uniqmapGo_total fr (2 * files.length) files [] []
    (uinv_init fr files hnd hinj) (by rw [stMeasure_init])

/-- Witness for C8 on two distinct paths with a colliding basename. -/
theorem c8_terminates_witness :
    (["/a/x", "/b/x"] : List String).Nodup ∧
    (uniqmapGo (fun p => p) (2 * (["/a/x", "/b/x"] : List String).length)
      ["/a/x", "/b/x"] [] []).isSome = true :=
  ⟨by decide, c8_terminates (fun p => p) ["/a/x", "/b/x"] (by decide) (fun a _ b _ h => h)⟩

/-- C9: `fs2tag(node, lib, tags)` returns a `TagNode` bound to the given
library and tags whose explicit children dict equals `node`'s explicit
children dict, whatever `node`'s own class is (the copy bypasses
`__setitem__`, so the fresh node's link count stays 2). -/
theorem c9_fs2tag (node : Node) (root : Library) (tags : List String) :
    (fs2tag node root tags).typeName = "TagNode" ∧
    (fs2tag node root tags).libOf = some root ∧
    (fs2tag node root tags).tagsOf = some tags ∧
    (fs2tag node root tags).children = node.children ∧
    (fs2tag node root tags).nlink = 2 :=
  ⟨rfl, rfl, rfl, rfl, rfl⟩

/-- C10: for any source node with at least one explicit child, the node
returned by `fs2tag` has `st_nlink = 2`, not `2 + n`: the children are
written into the dict directly rather than through `__setitem__`, so the
public interface produces a node violating the link-count relation without
any concurrency. -/
theorem c10_fs2tag_breaks_nlink (node : Node) (root : Library) (tags : List String)
    (h : 1 ≤ node.children.length) :
    (fs2tag node root tags).nlink = 2 ∧
    (fs2tag node root tags).nlink ≠ 2 + (fs2tag node root tags).children.length := by
  refine ⟨rfl, ?_⟩
  have hc : (fs2tag node root tags).children = node.children := rfl
  have hn : (fs2tag node root tags).nlink = 2 := rfl
  rw [hn, hc]
  omega

/-- Witness for C10 on a one-child directory. -/
theorem c10_fs2tag_breaks_nlink_witness :
    1 ≤ (Node.fs [("a", mkFS)] 3).children.length ∧
    ((fs2tag (Node.fs [("a", mkFS)] 3) dummyLib []).nlink = 2 ∧
      (fs2tag (Node.fs [("a", mkFS)] 3) dummyLib []).nlink ≠
        2 + (fs2tag (Node.fs [("a", mkFS)] 3) dummyLib []).children.length) :=
  ⟨by decide, c10_fs2tag_breaks_nlink (Node.fs [("a", mkFS)] 3) dummyLib [] (by decide)⟩

end Dantalian
